import Mathlib

/-!
Verification of the y-data-house native backend (src/app/src-tauri/src/main.rs)
against its natural-language specification.

The Rust source is shallowly embedded: file contents and HTTP paths are
`List Char` (one entry per Unicode scalar, as in Rust `str` chars), worker
output lines are `List Nat` (UTF-8 bytes, because the output grammar slices
lines at byte offsets), file bodies served over HTTP are `List Nat` (bytes),
and machine integers are `Nat` (the `u32`/`u64` values involved are file
sizes, counts and offsets far from overflow; where Rust would panic on
underflow or a non-boundary slice, the model returns `none`).
-/

namespace YDH

/-! ## Generic list utilities shared by the embeddings -/

/-- Model of Rust `str::starts_with`: `l` begins with the pattern `p`. -/
def startsWithL {α : Type} [DecidableEq α] (p l : List α) : Bool :=
  decide (l.take p.length = p)

/-- Model of Rust `str::find`: byte/char index of the first occurrence of
`pat` in `l`, if any. -/
def findSubIdx {α : Type} [DecidableEq α] (pat : List α) : List α → Option Nat
  | [] => if startsWithL pat [] then some 0 else none
  | a :: rest =>
    if startsWithL pat (a :: rest) then some 0
    else (findSubIdx pat rest).map (· + 1)

/-- Model of Rust `str::contains` for a string pattern. -/
def containsSub {α : Type} [DecidableEq α] (pat l : List α) : Bool :=
  (findSubIdx pat l).isSome

/-- Split a character list on a separator character; like Rust
`str::split(sep)`, the result always has at least one (possibly empty) piece. -/
def splitOnChar (sep : Char) : List Char → List (List Char)
  | [] => [[]]
  | c :: rest =>
    if c = sep then [] :: splitOnChar sep rest
    else
      match splitOnChar sep rest with
      | [] => [[c]]
      | l :: ls => (c :: l) :: ls

/-- Join pieces with a separator character (inverse of `splitOnChar`);
models Rust `Vec::join("\n")` when `sep = '\n'`. -/
def joinSep (sep : Char) : List (List Char) → List Char
  | [] => []
  | [l] => l
  | l :: ls => l ++ sep :: joinSep sep ls

/-- Whitespace test used by the `trim` model.  Rust `char::is_whitespace`
covers all Unicode `White_Space`; this model covers its ASCII subset, which
is the only whitespace appearing in the inputs considered. -/
def isWsChar (c : Char) : Bool := c.isWhitespace

/-- Model of Rust `str::trim` (ASCII whitespace, see `isWsChar`). -/
def trimChars (l : List Char) : List Char :=
  ((l.dropWhile isWsChar).reverse.dropWhile isWsChar).reverse

/-- Strip one trailing carriage return, as Rust `str::lines` does on each
line that was terminated by a `\n`. -/
def stripCR (l : List Char) : List Char :=
  if l.getLast? = some '\r' then l.dropLast else l

/-- Model of Rust `str::lines`: split on `'\n'`; pieces that were terminated
by a `'\n'` lose one trailing `'\r'`; a final empty unterminated piece is
dropped (a trailing line terminator produces no extra line). -/
def rustLines (content : List Char) : List (List Char) :=
  let P := splitOnChar '\n' content
  let terminated := P.dropLast.map stripCR
  if P.getLast? = some [] then terminated else terminated ++ [P.getLastD []]

/-- Value of a digit-character list read in base 10. -/
def digitsVal (l : List Char) : Nat :=
  l.foldl (fun a c => 10 * a + (c.toNat - 48)) 0

/-- Model of Rust `str::parse::<u64>` / `parse::<u32>` on the values
exercised here: a nonempty all-digit string parses to its value, anything
else fails.  (Rust also accepts a leading `+` and fails on overflow;
neither case is exercised by the inputs considered.) -/
def parseNatChars (l : List Char) : Option Nat :=
  if l ≠ [] ∧ l.all Char.isDigit then some (digitsVal l) else none

/-- The decimal digit character for `n < 10`. -/
def digitChar (n : Nat) : Char := Char.ofNat (48 + n)

/-- Fuel-driven digit renderer (`n` has at most `n + 1` digits, so the
fuel in `natChars` never runs out; structural recursion keeps the
definition kernel-reducible). -/
def natCharsAux : Nat → Nat → List Char
  | 0, _ => []
  | fuel + 1, n =>
    if n < 10 then [digitChar n]
    else natCharsAux fuel (n / 10) ++ [digitChar (n % 10)]

/-- Decimal rendering of a natural number, as produced by Rust's
`Display` for unsigned integers (used by `format!`). -/
def natChars (n : Nat) : List Char := natCharsAux (n + 1) n

/-- Hexadecimal value of a character, if it is a hex digit. -/
def hexVal (c : Char) : Option Nat :=
  if '0' ≤ c ∧ c ≤ '9' then some (c.toNat - 48)
  else if 'A' ≤ c ∧ c ≤ 'F' then some (c.toNat - 55)
  else if 'a' ≤ c ∧ c ≤ 'f' then some (c.toNat - 87)
  else none

/-- Model of `urlencoding::decode` on the inputs considered: a valid `%XY`
escape of an ASCII byte decodes to that character; an invalid escape is kept
literally (as the crate does).  Escapes of non-ASCII bytes (which the crate
assembles into UTF-8 characters) do not occur in the inputs considered and
are kept literally here. -/
def percentDecode : List Char → List Char
  | [] => []
  | '%' :: h1 :: h2 :: rest =>
    (match hexVal h1, hexVal h2 with
     | some a, some b =>
       if 16 * a + b < 128 then Char.ofNat (16 * a + b) :: percentDecode rest
       else '%' :: h1 :: h2 :: percentDecode rest
     | _, _ => '%' :: percentDecode (h1 :: h2 :: rest))
  | c :: rest => c :: percentDecode rest

/-! ## Channel list store (main.rs `list_channels`, `add_channel`,
`remove_channel`, `toggle_channel`, `create_channels_file`) -/

/-- One parsed channel entry (main.rs `ChannelInfo`). -/
structure ChannelInfo where
  url : List Char
  name : List Char
  enabled : Bool
deriving DecidableEq, Repr

/-- main.rs `extract_channel_name_from_url`: the part after the last `@`
(else after the last `/`, else the whole URL), percent-decoded. -/
def extractChannelNameFromUrl (url : List Char) : List Char :=
  let raw :=
    if url.contains '@' then (url.reverse.takeWhile (fun c => c ≠ '@')).reverse
    else if url.contains '/' then (url.reverse.takeWhile (fun c => c ≠ '/')).reverse
    else url
  percentDecode raw

/-- Body of main.rs `list_channels` on the file contents: for each line,
trim it; skip it if it is empty or starts with `'#'`; otherwise build an
entry.  (The `enabled`/`url` computation below is kept exactly as in the
source; because every line starting with `'#'` was already skipped, the
disabled branch is unreachable.) -/
def listChannelsContent (content : List Char) : List ChannelInfo :=
  (rustLines content).filterMap (fun line =>
    let line := trimChars line
    if line.isEmpty ∨ line.head? = some '#' then none
    else
      let enabled := !(startsWithL ['#', ' '] line)
      let url := if enabled then line else line.drop 2
      some { url := url, name := extractChannelNameFromUrl url, enabled := enabled })

/-- main.rs `list_channels`: a missing `channels.txt` yields `Ok(vec![])`;
otherwise the file contents are parsed.  The file is `none` when absent. -/
def listChannelsOp : Option (List Char) → Except String (List ChannelInfo)
  | none => .ok []
  | some content => .ok (listChannelsContent content)

/-- The documentation header written by main.rs `create_channels_file`. -/
def channelsFileHeader : List Char :=
  ("# Y-Data-House 채널 목록\n# 한 줄에 하나씩 YouTube 채널 URL을 입력하세요\n# \x27#\x27로 시작하는 줄은 주석으로 처리됩니다\n#\n# 예시:\n# https://www.youtube.com/@리베라루츠대학\n# https://www.youtube.com/@채널명2\n#\n# 아래에 다운로드할 채널 URL을 추가하세요:\n\n").data

/-- How a channel-store operation touches the file on disk. -/
inductive WriteEff where
  /-- `fs::write` creating the file with the documentation header. -/
  | createFull (content : List Char)
  /-- `OpenOptions::append` + `writeln!`: the suffix is appended in place. -/
  | appendData (suffix : List Char)
  /-- `fs::write` replacing the whole file contents. -/
  | rewriteFull (content : List Char)
deriving DecidableEq, Repr

/-- Result of a mutating channel-store operation: the file afterwards, the
writes performed, and the error, if any. -/
structure ChannelOpOutcome where
  file : Option (List Char)
  writes : List WriteEff
  err : Option String
deriving DecidableEq, Repr

/-- main.rs `add_channel`: create the file with the header if missing, then
re-list and reject a duplicate URL, else append `url` plus a newline via
`OpenOptions::append`. -/
def addChannel (file : Option (List Char)) (url : List Char) : ChannelOpOutcome :=
  let created := file.isNone
  let content := file.getD channelsFileHeader
  let createWrites := if created then [WriteEff.createFull channelsFileHeader] else []
  if (listChannelsContent content).any (fun c => c.url = url) then
    { file := some content, writes := createWrites, err := some "채널이 이미 존재합니다" }
  else
    { file := some (content ++ url ++ ['\n'])
      writes := createWrites ++ [WriteEff.appendData (url ++ ['\n'])]
      err := none }

/-- main.rs `remove_channel`: drop every line whose trimmed form (with the
`# ` marker removed, when present) equals `url`, and rewrite the file with
the remaining lines joined by `'\n'`. -/
def removeChannel (file : Option (List Char)) (url : List Char) : ChannelOpOutcome :=
  match file with
  | none => { file := none, writes := [], err := some "channels.txt 파일이 존재하지 않습니다" }
  | some content =>
    let newLines := (rustLines content).filter (fun line =>
      let line := trimChars line
      if startsWithL ['#', ' '] line then line.drop 2 ≠ url else line ≠ url)
    let newContent := joinSep '\n' newLines
    { file := some newContent, writes := [WriteEff.rewriteFull newContent], err := none }

/-- Per-line action of main.rs `toggle_channel`: trim the line; an enabled
line equal to `url` gains the `# ` marker, a disabled line for `url` loses
it, anything else is kept (trimmed). -/
def toggleLine (url line : List Char) : List Char :=
  let t := trimChars line
  if t = url then '#' :: ' ' :: t
  else if startsWithL ['#', ' '] t = true ∧ t.drop 2 = url then t.drop 2
  else t

/-- main.rs `toggle_channel`: map `toggleLine` over the lines and rewrite
the file with the results joined by `'\n'`. -/
def toggleChannel (file : Option (List Char)) (url : List Char) : ChannelOpOutcome :=
  match file with
  | none => { file := none, writes := [], err := some "channels.txt 파일이 존재하지 않습니다" }
  | some content =>
    let newContent := joinSep '\n' ((rustLines content).map (toggleLine url))
    { file := some newContent, writes := [WriteEff.rewriteFull newContent], err := none }

/-! ## Range media server (main.rs `serve_video_with_range`,
`parse_range_header`)

Requests are modelled by the warp path tail (percent-encoded, `List Char`)
and the optional `Range` header value.  The filesystem is a function from
the *resolved* path (the OS resolves `.` and `..` segments) to the file's
bytes; `none` means no regular file there.  A `none` result of the handler
is `warp::reject::not_found()`, which warp answers with 404. -/

/-- Model of Rust `str::replace("..", "")`: remove every (leftmost,
non-overlapping) occurrence of `..`. -/
def replaceDotDot : List Char → List Char
  | '.' :: '.' :: rest => replaceDotDot rest
  | c :: rest => c :: replaceDotDot rest
  | [] => []

/-- Model of `trim_start_matches('/')`. -/
def dropLeadingSlashes (l : List Char) : List Char := l.dropWhile (fun c => c = '/')

/-- The path the handler passes to the filesystem, relative to the project
root: literal `..` removed, leading slashes removed, percent-decoded, then
`PathBuf::join` under `vault/` (a decoded path that is absolute replaces
the base, as `join` does). -/
def resolvedRelPath (tailPath : List Char) : List Char :=
  let cleaned := replaceDotDot tailPath
  let safe := dropLeadingSlashes cleaned
  let decoded := percentDecode safe
  if startsWithL ['/'] decoded then decoded else ("vault/").data ++ decoded

/-- Filesystem resolution of a path string into segments: empty and `.`
segments vanish, `..` pops the previous segment. -/
def normalizeSegments (p : List Char) : List (List Char) :=
  (splitOnChar '/' p).foldl
    (fun acc s =>
      if s = [] ∨ s = ['.'] then acc
      else if s = ['.', '.'] then acc.dropLast
      else acc ++ [s]) []

/-- The resolved path names a file under `vault/`. -/
def underVault (p : List Char) : Bool :=
  (normalizeSegments p).head? = some ("vault").data

/-- Does the percent-decoded form of a request path contain a `..`
segment? -/
def decodedHasDotDotSegment (tailPath : List Char) : Bool :=
  (splitOnChar '/' (percentDecode tailPath)).any (fun s => s = ['.', '.'])

/-- The response assembled by `serve_video_with_range` (fields not touched
by any claim — `content-type`, CORS and cache headers — are constants in
the source and are omitted). -/
structure HttpResponse where
  status : Nat
  contentRange : Option (List Char)
  contentLength : Nat
  body : List Nat
deriving DecidableEq, Repr

/-- main.rs `parse_range_header`: strip `bytes=`, split at the first `-`;
a missing/unparsable start defaults to 0, a missing end defaults to
`size-1`, a parsed end is clamped to `size-1`.  (`file_size` is a `u64`;
the `size-1` subtraction is `Nat` truncation here, Rust would panic on a
zero-size file — no claim concerns an empty file.) -/
def parseRangeHeader (header : Option (List Char)) (fileSize : Nat) : Nat × Nat :=
  match header with
  | some range =>
    if startsWithL ("bytes=").data range then
      let rangeValue := range.drop 6
      if '-' ∈ rangeValue then
        let startStr := rangeValue.takeWhile (fun c => c ≠ '-')
        let endStr := (rangeValue.dropWhile (fun c => c ≠ '-')).drop 1
        let start := (parseNatChars startStr).getD 0
        let e :=
          if endStr = [] then fileSize - 1
          else min ((parseNatChars endStr).getD (fileSize - 1)) (fileSize - 1)
        (start, e)
      else (0, fileSize - 1)
    else (0, fileSize - 1)
  | none => (0, fileSize - 1)

/-- main.rs `serve_video_with_range`: sanitize the path, look the resolved
path up on the filesystem (404 when absent), parse the range, read the
requested slice (`read_exact` past EOF fails → 404), and answer 206 with
`Content-Range` exactly when a Range header is present and the range does
not cover the whole file, else 200. -/
def serveVideoWithRange (fsFiles : List (List Char) → Option (List Nat))
    (tailPath : List Char) (rangeHeader : Option (List Char)) : Option HttpResponse :=
  let fullPath := resolvedRelPath tailPath
  match fsFiles (normalizeSegments fullPath) with
  | none => none
  | some fileBytes =>
    let fileSize := fileBytes.length
    let se := parseRangeHeader rangeHeader fileSize
    let start := se.1
    let e := se.2
    let contentLength := e - start + 1
    if fileSize < start + contentLength then none
    else
      let isPartial := rangeHeader.isSome && (decide (start ≠ 0) || decide (e + 1 ≠ fileSize))
      some
        { status := if isPartial then 206 else 200
          contentRange :=
            if isPartial then
              some (("bytes ").data ++ natChars start ++ ['-'] ++ natChars e
                ++ ['/'] ++ natChars fileSize)
            else none
          contentLength := if isPartial then contentLength else fileSize
          body := (fileBytes.drop start).take contentLength }

/-! ## Output grammar of the download job (main.rs `parse_ytdlp_progress`
and the stdout reader inside `run_process_with_realtime_output`)

Worker lines are `List Nat` — their UTF-8 bytes — because the Rust code
indexes and slices lines at *byte* offsets (`line_str[start + 2 ..]`), and
`str` slicing panics when a bound is not a character boundary.  A slice
whose bound falls inside a multi-byte character is modelled as `none`,
meaning the reader thread panics. -/

/-- UTF-8 encoding of one character. -/
def utf8Ch (c : Char) : List Nat :=
  let n := c.toNat
  if n < 0x80 then [n]
  else if n < 0x800 then [0xC0 + n / 64, 0x80 + n % 64]
  else if n < 0x10000 then [0xE0 + n / 4096, 0x80 + (n / 64) % 64, 0x80 + n % 64]
  else [0xF0 + n / 262144, 0x80 + (n / 4096) % 64, 0x80 + (n / 64) % 64, 0x80 + n % 64]

/-- UTF-8 bytes of a string. -/
def utf8Str (s : String) : List Nat := (s.data.map utf8Ch).flatten

/-- A UTF-8 continuation byte. -/
def isContByte (b : Nat) : Bool := 128 ≤ b ∧ b < 192

/-- Is byte index `i` a character boundary of `s` (start of a character or
the end of the string)?  Rust `str` slicing panics on non-boundaries. -/
def isBoundary (s : List Nat) (i : Nat) : Bool :=
  if i = s.length then true
  else match s.get? i with
    | some b => !isContByte b
    | none => false

/-- Model of Rust `&line[a..b]`: `none` when a bound is out of range or not
a character boundary — the cases where Rust panics. -/
def sliceBytes (s : List Nat) (a b : Nat) : Option (List Nat) :=
  if a ≤ b ∧ b ≤ s.length ∧ isBoundary s a ∧ isBoundary s b then
    some ((s.drop a).take (b - a))
  else none

/-- ASCII whitespace byte (the subset of Rust `char::is_whitespace`
arising in worker output). -/
def isWsByte (b : Nat) : Bool := b = 9 ∨ b = 10 ∨ b = 11 ∨ b = 12 ∨ b = 13 ∨ b = 32

/-- ASCII decimal digit byte. -/
def isDigitByte (b : Nat) : Bool := 48 ≤ b ∧ b ≤ 57

/-- Base-10 value of a digit-byte list. -/
def bytesVal (l : List Nat) : Nat := l.foldl (fun a b => 10 * a + (b - 48)) 0

/-- Model of Rust `str::trim` on a byte slice (ASCII whitespace). -/
def trimBytes (l : List Nat) : List Nat :=
  ((l.dropWhile isWsByte).reverse.dropWhile isWsByte).reverse

/-- Model of `str::parse::<u32>` on a byte slice: nonempty all-digits. -/
def parseNatBytes (l : List Nat) : Option Nat :=
  if l ≠ [] ∧ l.all isDigitByte then some (bytesVal l) else none

/-- Model of `str::parse::<f32>` on the percentage texts arising here
(digits with an optional decimal point), as an exact rational.  The other
forms `f32::from_str` accepts (sign, exponent, `inf`, `NaN`) do not occur
in yt-dlp percentages; the one-decimal percentages exercised below are
exactly representable in `f32`, so no rounding is modelled. -/
def parseF32Rat (l : List Nat) : Option Rat :=
  if (46 : Nat) ∈ l then
    let intPart := l.takeWhile (fun b => b ≠ 46)
    let fracPart := (l.dropWhile (fun b => b ≠ 46)).drop 1
    if (46 : Nat) ∈ fracPart then none
    else if intPart = [] ∧ fracPart = [] then none
    else if intPart.all isDigitByte ∧ fracPart.all isDigitByte then
      some (mkRat (bytesVal intPart * 10 ^ fracPart.length + bytesVal fracPart)
        (10 ^ fracPart.length))
    else none
  else if l ≠ [] ∧ l.all isDigitByte then some (mkRat (bytesVal l) 1) else none

/-- A `download-progress` event (main.rs `DownloadProgress`).  The
`current_video` display string is omitted: no claim refers to it. -/
structure DlEvent where
  channel : String
  status : String
  progress : Rat
  totalVideos : Nat
  completedVideos : Nat
  logMessage : List Nat
deriving DecidableEq, Repr

/-- main.rs `parse_ytdlp_progress`: find `"] "`, find `"% of"` after it,
parse the text between as `f32` and emit an event carrying exactly that
percentage (totals fixed at 1/0).  Both slice bounds are match offsets, so
they are always character boundaries; no panic is possible here. -/
def parseYtdlpEvent (channelName : String) (line : List Nat) : Option DlEvent :=
  match findSubIdx (utf8Str "] ") line with
  | none => none
  | some percentStart =>
    match findSubIdx (utf8Str "% of") (line.drop (percentStart + 2)) with
    | none => none
    | some percentEnd =>
      let percentStr := (line.drop (percentStart + 2)).take percentEnd
      match parseF32Rat percentStr with
      | none => none
      | some percent =>
        some { channel := channelName, status := "다운로드 중", progress := percent
               totalVideos := 1, completedVideos := 0, logMessage := line }

/-- Discovery-count parsing in the stdout reader (main.rs 712-721): on a
line containing `총` and `개 영상을 발견했습니다`, find `"총 "` at byte
`start` and slice `line[start+2 .. start+end]`.  `총` is a three-byte
character, so `start+2` is never a character boundary: whenever both finds
succeed the slice panics.  Result: `none` = panic, `some v` = no panic
with `v` the count sent on the mpsc channel, if any. -/
def parseTotalVideos (line : List Nat) : Option (Option Nat) :=
  if containsSub (utf8Str "총") line ∧ containsSub (utf8Str "개 영상을 발견했습니다") line then
    match findSubIdx (utf8Str "총 ") line with
    | none => some none
    | some start =>
      match findSubIdx (utf8Str "개 영상을 발견했습니다") (line.drop start) with
      | none => some none
      | some e =>
        match sliceBytes line (start + 2) (start + e) with
        | none => none
        | some numBytes => some (parseNatBytes (trimBytes numBytes))
  else some none

/-- Completion-count parsing in the stdout reader (main.rs 724-733): on a
line containing `다운로드 완료:` and `개 성공`, find `"다운로드 완료: "`
at byte `start` and slice `line[start+7 .. start+end]`.  Byte `start+7`
falls inside the multi-byte `로`, so whenever both finds succeed the slice
panics. -/
def parseCompletedVideos (line : List Nat) : Option (Option Nat) :=
  if containsSub (utf8Str "다운로드 완료:") line ∧ containsSub (utf8Str "개 성공") line then
    match findSubIdx (utf8Str "다운로드 완료: ") line with
    | none => some none
    | some start =>
      match findSubIdx (utf8Str "개 성공") (line.drop start) with
      | none => some none
      | some e =>
        match sliceBytes line (start + 7) (start + e) with
        | none => none
        | some numBytes => some (parseNatBytes (trimBytes numBytes))
  else some none

/-- Outcome of the stdout reader on one line. -/
inductive LineStep where
  /-- The reader thread panicked after emitting `events`. -/
  | panicked (events : List DlEvent)
  /-- Events emitted and counts sent on the two mpsc channels. -/
  | ok (events : List DlEvent) (totalSent : Option Nat) (completedSent : Option Nat)
deriving DecidableEq, Repr

/-- One iteration of the stdout reader loop (main.rs 682-742): skip blank
lines; emit the verbatim log event; then run the discovery-count,
completion-count and `[download] …%` rules in order. -/
def processStdoutLine (channelName : String) (line : List Nat) : LineStep :=
  if line.all isWsByte then .ok [] none none
  else
    let logEv : DlEvent :=
      { channel := channelName, status := "진행 중", progress := 0
        totalVideos := 0, completedVideos := 0, logMessage := line }
    match parseTotalVideos line with
    | none => .panicked [logEv]
    | some totalSent =>
      match parseCompletedVideos line with
      | none => .panicked [logEv]
      | some completedSent =>
        let events :=
          if containsSub (utf8Str "[download]") line ∧ containsSub (utf8Str "%") line then
            match parseYtdlpEvent channelName line with
            | some ev => [logEv, ev]
            | none => [logEv]
          else [logEv]
        .ok events totalSent completedSent

/-- The stdout reader over a whole transcript: process lines in order,
stopping (with the thread dead) at the first panic.  Returns the emitted
events and whether the thread panicked. -/
def runStdout (channelName : String) : List (List Nat) → List DlEvent × Bool
  | [] => ([], false)
  | l :: rest =>
    match processStdoutLine channelName l with
    | .panicked evs => (evs, true)
    | .ok evs _ _ =>
      let r := runStdout channelName rest
      (evs ++ r.1, r.2)

/-! ## Process supervisor watcher loop (main.rs 786-815)

The watcher polls every 100 ms.  Each poll observes the cancel flag, the
idle time since the last line (`last_activity.elapsed()`), and whether
`try_wait` reports the child gone (an `Err` from `try_wait` also ends the
loop).  The checks happen in exactly this order in the source: cancel
first, then the 15-second inactivity timeout (which calls `child.kill()`),
then the exit check. -/

/-- One observation made by a watcher poll. -/
structure PollObs where
  cancelled : Bool
  idleMillis : Nat
  exited : Bool
deriving DecidableEq, Repr

/-- The three ways the watcher loop ends. -/
inductive WatcherVerdict where
  /-- Cancel flag seen: return the cancel error (the child is killed by
  `cancel_download`, not here). -/
  | cancelled
  /-- More than 15 s without a line: `child.kill()` and the timeout error. -/
  | timeout
  /-- `try_wait` ended the loop; the run proceeds to collect the status. -/
  | exited
deriving DecidableEq, Repr

/-- Decision of one poll of the watcher loop (main.rs 787-815). -/
def watcherStep (o : PollObs) : Option WatcherVerdict :=
  if o.cancelled then some .cancelled
  else if 15000 < o.idleMillis then some .timeout
  else if o.exited then some .exited
  else none

/-- The watcher loop over a sequence of polls: the first decisive poll
determines the verdict; `none` means the trace ended with the loop still
polling. -/
def runWatcher : List PollObs → Option WatcherVerdict
  | [] => none
  | o :: rest =>
    match watcherStep o with
    | some v => some v
    | none => runWatcher rest

/-- Does the verdict kill the child inside the watcher?  Only the timeout
path calls `child.kill()` (main.rs 797). -/
def watcherKillsChild : WatcherVerdict → Bool
  | .timeout => true
  | _ => false

/-- Error message returned on the cancellation path (main.rs 790). -/
def cancelErrMsg : String := "다운로드가 중단되었습니다"

/-- Error message returned on the inactivity-timeout path (main.rs 798). -/
def procTimeoutMsg : String := "프로세스 타임아웃으로 중단되었습니다 (15초간 응답 없음)"

/-- What `run_process_with_realtime_output` returns for each verdict:
the two error paths return early with their messages; `exited` falls
through to collect the exit status. -/
def watcherReturn : WatcherVerdict → Except String Unit
  | .cancelled => .error cancelErrMsg
  | .timeout => .error procTimeoutMsg
  | .exited => .ok ()

/-! ## Download command façade (main.rs `download_videos_with_progress`,
896-933) -/

/-- How a supervised download run ends, as seen by the command: either the
child exited (with final totals and success flag) or
`run_process_with_realtime_output` returned an error string. -/
inductive RunOutcome where
  | finished (total completed : Nat) (success : Bool)
  | failed (errMsg : String)
deriving DecidableEq, Repr

/-- Decimal string of a `Nat` (Rust `format!` of an unsigned integer). -/
def natString (n : Nat) : String := String.mk (natChars n)

/-- Terminal `download-progress` events emitted by the command after the
run (main.rs 899-933): one success event, or one failure event, or —
on any error return, including cancellation and timeout — none at all. -/
def downloadTerminalEvents (o : RunOutcome) : List DlEvent :=
  match o with
  | .finished t c true =>
    [{ channel := "전체", status := "완료", progress := 100
       totalVideos := t, completedVideos := c
       logMessage := utf8Str ("🎉 배치 다운로드 완료! (총 " ++ natString c ++ "/"
         ++ natString t ++ "개)") }]
  | .finished t c false =>
    [{ channel := "전체", status := "실패", progress := 100
       totalVideos := t, completedVideos := c
       logMessage := utf8Str "❌ 배치 다운로드 중 오류 발생" }]
  | .failed _ => []

/-- The command's returned result (main.rs 899-933): note that *any* error
whose message contains `중단` — which includes the timeout message — is
converted into a successful `Ok` "download was cancelled" result. -/
def downloadCommandResult (o : RunOutcome) : Except String String :=
  match o with
  | .finished t c true =>
    .ok ("✅ 배치 다운로드 성공: " ++ natString c ++ "/" ++ natString t
      ++ "개 영상 다운로드 완료")
  | .finished _ _ false => .error "배치 다운로드 중 오류가 발생했습니다"
  | .failed e =>
    if containsSub ("중단").data e.data then .ok "다운로드가 중단되었습니다"
    else .error ("배치 다운로드 실패: " ++ e)

/-- States taken by the `current_process` registry slot during
`download_videos_with_progress`: the spawned child is stored (main.rs
884-888) and immediately taken back out to be passed by value to the
supervisor (890-895).  No later code re-inserts it, so the slot is `none`
for the whole run and at every termination. -/
def downloadSlotStates (child : Nat) : List (Option Nat) := [some child, none]

/-! ## Well-formedness of a channel-list file, and concrete fixtures -/

/-- A well-formed channel-list file (spec section 6) together with a URL
present in it: every line matches the grammar (blank, comment, URL or
disabled entry) with no surrounding whitespace, the file has no carriage
returns and no trailing blank line, and `url` is a nonempty
whitespace-free string occurring as an enabled or disabled entry line. -/
def wellFormedChannels (content url : List Char) : Prop :=
  (∀ l ∈ rustLines content, trimChars l = l) ∧
  (rustLines content).getLast? ≠ some [] ∧
  ('\r' ∉ content) ∧
  url ≠ [] ∧
  (∀ c ∈ url, isWsChar c = false) ∧
  (∃ l ∈ rustLines content, l = url ∨ l = '#' :: ' ' :: url)

instance (content url : List Char) : Decidable (wellFormedChannels content url) := by
  unfold wellFormedChannels
  infer_instance

/-- The `Range` header value `bytes=a-b` for concrete bounds. -/
def mkRangeValue (a b : Nat) : List Char :=
  ("bytes=").data ++ natChars a ++ '-' :: natChars b

/-- Scenario S1 end state: the channel file holds one disabled entry. -/
def s1File : List Char := ("# https://www.youtube.com/@x\n").data

/-- The URL of the S1 entry. -/
def s1Url : List Char := ("https://www.youtube.com/@x").data

/-- A channel file with CRLF line endings, used to observe that `add`
leaves existing bytes untouched. -/
def crlfFile : List Char := ("https://a\r\nhttps://b\n").data

/-- A fresh URL to add. -/
def addUrl : List Char := ("https://u").data

/-- A well-formed channel file used to instantiate the round-trip
theorem. -/
def wfFile : List Char := ("# comment\nhttps://a\nhttps://b\n").data

/-- The URL toggled in `wfFile`. -/
def wfUrl : List Char := ("https://a").data

/-- A filesystem with a 4-byte media file at `vault/a.mp4` (paths are
resolved segment lists). -/
def demoFs : List (List Char) → Option (List Nat) :=
  fun segs => if segs = [("vault").data, ("a.mp4").data] then some [10, 20, 30, 40] else none

/-- A filesystem whose only file, `secret`, lives *outside* `vault/`
(directly under the project root). -/
def outsideVaultFs : List (List Char) → Option (List Nat) :=
  fun segs => if segs = [("secret").data] then some [42] else none

/-- A request path whose `..` is introduced only by percent-decoding, so
the literal `..` filter does not see it. -/
def escapePath : List Char := ("%2E%2E/secret").data

/-- Scenario S5 transcript lines (UTF-8 bytes). -/
def s5Line1 : List Nat := utf8Str "총 3개 영상을 발견했습니다"

/-- S5 per-item rate line exactly as in the spec. -/
def s5Line2 : List Nat := utf8Str "[download] 50.0%"

/-- S5 completion line. -/
def s5Line3 : List Nat := utf8Str "다운로드 완료: 2개 성공"

/-- The S5 transcript. -/
def s5Transcript : List (List Nat) := [s5Line1, s5Line2, s5Line3]

/-- A full yt-dlp rate line (the form `parse_ytdlp_progress` accepts,
with `% of`). -/
def ytdlpFullLine : List Nat := utf8Str "[download] 50.0% of 12.34MiB at 1.23MiB/s ETA 00:10"

/-! ## Theorems -/

/-! ### Helper lemmas about the list utilities -/

theorem splitOnChar_ne_nil (sep : Char) (l : List Char) : splitOnChar sep l ≠ [] := by
  induction l with
  | nil => simp [splitOnChar]
  | cons c rest ih =>
    by_cases h : c = sep
    · simp [splitOnChar, h]
    · simp only [splitOnChar, if_neg h]
      cases hsp : splitOnChar sep rest with
      | nil => simp
      | cons p ps => simp

theorem joinSep_splitOnChar (sep : Char) (l : List Char) :
    joinSep sep (splitOnChar sep l) = l := by
  induction l with
  | nil => rfl
  | cons c rest ih =>
    by_cases h : c = sep
    · simp only [splitOnChar, if_pos h]
      cases hsp : splitOnChar sep rest with
      | nil => exact absurd hsp (splitOnChar_ne_nil sep rest)
      | cons p ps =>
        rw [hsp] at ih
        show sep :: joinSep sep (p :: ps) = c :: rest
        rw [ih, h]
    · simp only [splitOnChar, if_neg h]
      cases hsp : splitOnChar sep rest with
      | nil => exact absurd hsp (splitOnChar_ne_nil sep rest)
      | cons p ps =>
        rw [hsp] at ih
        cases ps with
        | nil => simpa [joinSep] using congrArg (c :: ·) ih
        | cons q qs => exact congrArg (c :: ·) ih

theorem mem_splitOnChar_of_mem (sep : Char) (l : List Char) (p : List Char) (c : Char)
    (hp : p ∈ splitOnChar sep l) (hc : c ∈ p) : c ∈ l := by
  induction l generalizing p with
  | nil =>
    simp [splitOnChar] at hp
    subst hp
    simp at hc
  | cons a rest ih =>
    by_cases h : a = sep
    · simp only [splitOnChar, if_pos h] at hp
      rcases List.mem_cons.1 hp with h1 | h1
      · subst h1; simp at hc
      · exact List.mem_cons_of_mem a (ih p h1 hc)
    · simp only [splitOnChar, if_neg h] at hp
      cases hsp : splitOnChar sep rest with
      | nil => exact absurd hsp (splitOnChar_ne_nil sep rest)
      | cons q qs =>
        rw [hsp] at hp
        rcases List.mem_cons.1 hp with h1 | h1
        · subst h1
          rcases List.mem_cons.1 hc with h2 | h2
          · exact List.mem_cons.2 (Or.inl h2)
          · exact List.mem_cons_of_mem a
              (ih q (by rw [hsp]; exact List.mem_cons_self q qs) h2)
        · exact List.mem_cons_of_mem a
            (ih p (by rw [hsp]; exact List.mem_cons_of_mem q h1) hc)

theorem not_mem_of_mem_splitOnChar (sep : Char) (l : List Char) (p : List Char)
    (hp : p ∈ splitOnChar sep l) : sep ∉ p := by
  induction l generalizing p with
  | nil =>
    simp [splitOnChar] at hp
    subst hp
    simp
  | cons a rest ih =>
    by_cases h : a = sep
    · simp only [splitOnChar, if_pos h] at hp
      rcases List.mem_cons.1 hp with h1 | h1
      · subst h1; simp
      · exact ih p h1
    · simp only [splitOnChar, if_neg h] at hp
      cases hsp : splitOnChar sep rest with
      | nil => exact absurd hsp (splitOnChar_ne_nil sep rest)
      | cons q qs =>
        rw [hsp] at hp
        rcases List.mem_cons.1 hp with h1 | h1
        · subst h1
          intro hm
          rcases List.mem_cons.1 hm with h2 | h2
          · exact h h2.symm
          · exact ih q (by rw [hsp]; exact List.mem_cons_self q qs) h2
        · exact ih p (by rw [hsp]; exact List.mem_cons_of_mem q h1)

theorem splitOnChar_of_not_mem (sep : Char) (l : List Char) (h : sep ∉ l) :
    splitOnChar sep l = [l] := by
  induction l with
  | nil => rfl
  | cons c rest ih =>
    have hc : c ≠ sep := fun he => h (by rw [← he]; exact List.mem_cons_self c rest)
    have hrest : sep ∉ rest := fun hm => h (List.mem_cons_of_mem c hm)
    simp only [splitOnChar, if_neg hc, ih hrest]

theorem splitOnChar_append_cons (sep : Char) (A B : List Char) (hA : sep ∉ A) :
    splitOnChar sep (A ++ sep :: B) = A :: splitOnChar sep B := by
  induction A with
  | nil => simp [splitOnChar]
  | cons a A ih =>
    have ha : a ≠ sep := fun he => hA (by rw [← he]; exact List.mem_cons_self a A)
    have hA2 : sep ∉ A := fun hm => hA (List.mem_cons_of_mem a hm)
    rw [List.cons_append]
    simp only [splitOnChar, if_neg ha, ih hA2]

theorem splitOnChar_joinSep (sep : Char) (P : List (List Char)) (hP : P ≠ [])
    (h : ∀ p ∈ P, sep ∉ p) : splitOnChar sep (joinSep sep P) = P := by
  induction P with
  | nil => exact absurd rfl hP
  | cons p ps ih =>
    cases ps with
    | nil => simpa [joinSep] using splitOnChar_of_not_mem sep p (h p (by simp))
    | cons q qs =>
      show splitOnChar sep (p ++ sep :: joinSep sep (q :: qs)) = p :: q :: qs
      rw [splitOnChar_append_cons sep p _ (h p (by simp))]
      rw [ih (by simp) (fun r hr => h r (List.mem_cons_of_mem p hr))]

theorem joinSep_append_single (sep : Char) (P : List (List Char)) (x : List Char)
    (hP : P ≠ []) : joinSep sep (P ++ [x]) = joinSep sep P ++ sep :: x := by
  induction P with
  | nil => exact absurd rfl hP
  | cons p ps ih =>
    cases ps with
    | nil => rfl
    | cons q qs =>
      show p ++ sep :: joinSep sep ((q :: qs) ++ [x]) = (p ++ sep :: joinSep sep (q :: qs)) ++ sep :: x
      rw [ih (by simp), List.append_assoc, List.cons_append]

theorem not_mem_joinSep (c sep : Char) (P : List (List Char)) (hc : c ≠ sep)
    (h : ∀ p ∈ P, c ∉ p) : c ∉ joinSep sep P := by
  induction P with
  | nil => simp [joinSep]
  | cons p ps ih =>
    cases ps with
    | nil => simpa [joinSep] using h p (by simp)
    | cons q qs =>
      intro hm
      rcases List.mem_append.1 hm with h1 | h1
      · exact h p (by simp) h1
      · rcases List.mem_cons.1 h1 with h2 | h2
        · exact hc h2
        · exact ih (fun r hr => h r (List.mem_cons_of_mem p hr)) h2

theorem mem_of_headSome {α : Type} (l : List α) (a : α) (h : l.head? = some a) : a ∈ l := by
  cases l with
  | nil => simp at h
  | cons b t =>
    simp at h
    subst h
    exact List.mem_cons_self b t

theorem mem_of_getLastSome {α : Type} (l : List α) (a : α) (h : l.getLast? = some a) :
    a ∈ l := by
  induction l with
  | nil => simp at h
  | cons b t ih =>
    cases t with
    | nil => simp at h; subst h; exact List.mem_cons_self b []
    | cons c s =>
      rw [List.getLast?_cons_cons] at h
      exact List.mem_cons_of_mem b (ih h)

theorem getLast?_cons_ne_nil {α : Type} (a : α) (l : List α) (h : l ≠ []) :
    (a :: l).getLast? = l.getLast? := by
  cases l with
  | nil => exact absurd rfl h
  | cons b t => exact List.getLast?_cons_cons

theorem getLast?_map_eq {α β : Type} (f : α → β) (l : List α) :
    (l.map f).getLast? = l.getLast?.map f := by
  induction l with
  | nil => rfl
  | cons a l ih =>
    cases l with
    | nil => rfl
    | cons b t =>
      simp only [List.map_cons] at ih ⊢
      rw [List.getLast?_cons_cons, List.getLast?_cons_cons, ih]

theorem mem_of_mem_trimChars (l : List Char) (c : Char) (h : c ∈ trimChars l) : c ∈ l := by
  unfold trimChars at h
  have h1 := List.mem_reverse.1 h
  have h2 := (List.dropWhile_sublist (l := (l.dropWhile isWsChar).reverse) isWsChar).subset h1
  have h3 := List.mem_reverse.1 h2
  exact (List.dropWhile_sublist isWsChar).subset h3

theorem stripCR_eq_self (l : List Char) (h : '\r' ∉ l) : stripCR l = l := by
  unfold stripCR
  rw [if_neg]
  intro hc
  exact h (mem_of_getLastSome l '\r' hc)

theorem takeWhile_append_cons {α : Type} (p : α → Bool) (A : List α) (b : α) (B : List α)
    (hA : ∀ a ∈ A, p a = true) (hb : p b = false) : (A ++ b :: B).takeWhile p = A := by
  induction A with
  | nil => simp [List.takeWhile_cons, hb]
  | cons a A ih =>
    rw [List.cons_append, List.takeWhile_cons, hA a (by simp), if_pos rfl]
    rw [ih (fun x hx => hA x (List.mem_cons_of_mem a hx))]

theorem dropWhile_append_cons {α : Type} (p : α → Bool) (A : List α) (b : α) (B : List α)
    (hA : ∀ a ∈ A, p a = true) (hb : p b = false) : (A ++ b :: B).dropWhile p = b :: B := by
  induction A with
  | nil => simp [List.dropWhile_cons, hb]
  | cons a A ih =>
    rw [List.cons_append, List.dropWhile_cons, hA a (by simp), if_pos rfl]
    exact ih (fun x hx => hA x (List.mem_cons_of_mem a hx))

theorem take_len_append {α : Type} (p r : List α) : (p ++ r).take p.length = p := by
  induction p with
  | nil => simp
  | cons a p ih => simp [ih]

theorem drop_len_append {α : Type} (p r : List α) : (p ++ r).drop p.length = r := by
  induction p with
  | nil => simp
  | cons a p ih => simp [ih]

/-! ### Helper lemmas about `rustLines`, `trimChars` and `toggleLine` -/

theorem rustLines_no_cr_cases (content : List Char) (hcr : '\r' ∉ content) :
    splitOnChar '\n' content = rustLines content ∨
    splitOnChar '\n' content = rustLines content ++ [[]] := by
  have hPne : splitOnChar '\n' content ≠ [] := splitOnChar_ne_nil '\n' content
  have hterm : (splitOnChar '\n' content).dropLast.map stripCR
      = (splitOnChar '\n' content).dropLast := by
    rw [List.map_congr_left (g := id) ?_, List.map_id]
    intro p hp
    refine stripCR_eq_self p (fun hm => hcr ?_)
    exact mem_splitOnChar_of_mem '\n' content p '\r'
      ((List.dropLast_sublist _).subset hp) hm
  have hP2 : (splitOnChar '\n' content).getLast? =
      some ((splitOnChar '\n' content).getLast hPne) := List.getLast?_eq_getLast _ hPne
  have hsplit := (List.dropLast_append_getLast hPne).symm
  by_cases hle : (splitOnChar '\n' content).getLast hPne = []
  · right
    have hcond : (splitOnChar '\n' content).getLast? = some [] := by rw [hP2, hle]
    show splitOnChar '\n' content =
      (let P := splitOnChar '\n' content
       let terminated := P.dropLast.map stripCR
       if P.getLast? = some [] then terminated else terminated ++ [P.getLastD []]) ++ [[]]
    rw [if_pos hcond, hterm]
    rw [← hle]
    exact hsplit
  · left
    have hcond : ¬ (splitOnChar '\n' content).getLast? = some [] := by
      rw [hP2]
      intro he
      exact hle (Option.some.inj he)
    show splitOnChar '\n' content =
      (let P := splitOnChar '\n' content
       let terminated := P.dropLast.map stripCR
       if P.getLast? = some [] then terminated else terminated ++ [P.getLastD []])
    rw [if_neg hcond, hterm, List.getLastD_eq_getLast?, hP2]
    exact hsplit

theorem mem_split_of_mem_rustLines (content l : List Char) (hcr : '\r' ∉ content)
    (hl : l ∈ rustLines content) : l ∈ splitOnChar '\n' content := by
  rcases rustLines_no_cr_cases content hcr with hc | hc
  · rw [hc]; exact hl
  · rw [hc]; exact List.mem_append_left _ hl

theorem rustLines_joinSep (M : List (List Char)) (hM : M ≠ [])
    (hnl : ∀ m ∈ M, '\n' ∉ m) (hcr : ∀ m ∈ M, '\r' ∉ m)
    (hlast : M.getLast? ≠ some []) : rustLines (joinSep '\n' M) = M := by
  show (let P := splitOnChar '\n' (joinSep '\n' M)
        let terminated := P.dropLast.map stripCR
        if P.getLast? = some [] then terminated else terminated ++ [P.getLastD []]) = M
  rw [splitOnChar_joinSep '\n' M hM hnl]
  rw [if_neg hlast]
  have hterm : M.dropLast.map stripCR = M.dropLast := by
    rw [List.map_congr_left (g := id) ?_, List.map_id]
    intro p hp
    exact stripCR_eq_self p (hcr p ((List.dropLast_sublist _).subset hp))
  rw [hterm, List.getLastD_eq_getLast?, List.getLast?_eq_getLast _ hM]
  exact List.dropLast_append_getLast hM

theorem dropWhileWs_eq_self (l : List Char)
    (h : ∀ c, l.head? = some c → isWsChar c = false) : l.dropWhile isWsChar = l := by
  cases l with
  | nil => rfl
  | cons a rest => simp [List.dropWhile_cons, h a rfl]

theorem trimChars_eq_self (l : List Char)
    (hh : ∀ c, l.head? = some c → isWsChar c = false)
    (hg : ∀ c, l.getLast? = some c → isWsChar c = false) : trimChars l = l := by
  unfold trimChars
  rw [dropWhileWs_eq_self l hh]
  rw [dropWhileWs_eq_self l.reverse (fun c hc => hg c (by rwa [List.head?_reverse] at hc))]
  exact List.reverse_reverse l

theorem trimChars_eq_self_of_all (l : List Char) (h : ∀ c ∈ l, isWsChar c = false) :
    trimChars l = l :=
  trimChars_eq_self l (fun c hc => h c (mem_of_headSome l c hc))
    (fun c hc => h c (mem_of_getLastSome l c hc))

theorem toggleLine_of_eq (url l : List Char) (hl : trimChars l = l) (he : l = url) :
    toggleLine url l = '#' :: ' ' :: url := by
  subst he
  simp [toggleLine, hl]

theorem toggleLine_of_marked (url l : List Char) (hl : trimChars l = l)
    (hs : startsWithL ['#', ' '] l = true) (hd : l.drop 2 = url) (hne : l ≠ url) :
    toggleLine url l = url := by
  simp only [toggleLine, hl]
  rw [if_neg hne, if_pos ⟨hs, hd⟩, hd]

theorem toggleLine_of_other (url l : List Char) (hl : trimChars l = l) (hne : l ≠ url)
    (hno : ¬(startsWithL ['#', ' '] l = true ∧ l.drop 2 = url)) : toggleLine url l = l := by
  simp only [toggleLine, hl]
  rw [if_neg hne, if_neg hno]

theorem eq_cons_of_startsWith2 (l : List Char) (hs : startsWithL ['#', ' '] l = true) :
    l = '#' :: ' ' :: l.drop 2 := by
  have h2 : l.take 2 = ['#', ' '] := by simpa [startsWithL] using hs
  conv_lhs => rw [← List.take_append_drop 2 l]
  rw [h2]
  rfl

theorem toggleLine_invol (url l : List Char) (hl : trimChars l = l) (hu : url ≠ [])
    (huws : ∀ c ∈ url, isWsChar c = false) : toggleLine url (toggleLine url l) = l := by
  have trimU : trimChars url = url := trimChars_eq_self_of_all url huws
  have trimHU : trimChars ('#' :: ' ' :: url) = '#' :: ' ' :: url := by
    refine trimChars_eq_self _ (fun c hc => ?_) (fun c hc => ?_)
    · simp at hc
      subst hc
      rfl
    · rw [getLast?_cons_ne_nil _ _ (by simp), getLast?_cons_ne_nil _ _ hu] at hc
      exact huws c (mem_of_getLastSome url c hc)
  have hneHU : ('#' :: ' ' :: url) ≠ url := by
    intro he
    have hlen := congrArg List.length he
    simp at hlen
    omega
  have hsHU : startsWithL ['#', ' '] ('#' :: ' ' :: url) = true := by
    simp [startsWithL]
  by_cases h1 : l = url
  · rw [toggleLine_of_eq url l hl h1]
    rw [toggleLine_of_marked url ('#' :: ' ' :: url) trimHU hsHU rfl hneHU]
    exact h1.symm
  · by_cases h2 : startsWithL ['#', ' '] l = true ∧ l.drop 2 = url
    · rw [toggleLine_of_marked url l hl h2.1 h2.2 h1]
      rw [toggleLine_of_eq url url trimU rfl]
      conv_rhs => rw [eq_cons_of_startsWith2 l h2.1]
      rw [h2.2]
    · rw [toggleLine_of_other url l hl h1 h2, toggleLine_of_other url l hl h1 h2]

theorem toggleLine_ne_nil (url l : List Char) (hl : trimChars l = l) (hne : l ≠ [])
    (hu : url ≠ []) : toggleLine url l ≠ [] := by
  simp only [toggleLine, hl]
  split_ifs with h1 h2
  · simp
  · rw [h2.2]; exact hu
  · exact hne

theorem not_mem_toggleLine (url l : List Char) (c : Char) (hc1 : c ≠ '#') (hc2 : c ≠ ' ')
    (hcl : c ∉ l) : c ∉ toggleLine url l := by
  have htr : c ∉ trimChars l := fun hm => hcl (mem_of_mem_trimChars l c hm)
  simp only [toggleLine]
  split_ifs with h1 h2 <;> intro hm
  · rcases List.mem_cons.1 hm with h | h
    · exact hc1 h
    · rcases List.mem_cons.1 h with h3 | h3
      · exact hc2 h3
      · exact htr h3
  · exact htr ((List.drop_sublist 2 (trimChars l)).subset hm)
  · exact htr hm

/-! ### Helper lemmas about decimal rendering and the Range header -/

theorem digitChar_isDigit (d : Nat) (h : d < 10) : (digitChar d).isDigit = true := by
  interval_cases d <;> decide

theorem digitChar_toNat (d : Nat) (h : d < 10) : (digitChar d).toNat = 48 + d := by
  interval_cases d <;> decide

theorem natCharsAux_ne_nil (fuel n : Nat) (h : n < fuel) : natCharsAux fuel n ≠ [] := by
  cases fuel with
  | zero => omega
  | succ f =>
    simp only [natCharsAux]
    split_ifs with h10
    · simp
    · simp

theorem natCharsAux_digits (fuel n : Nat) (h : n < fuel) :
    ∀ c ∈ natCharsAux fuel n, c.isDigit = true := by
  induction fuel generalizing n with
  | zero => omega
  | succ f ih =>
    intro c hc
    simp only [natCharsAux] at hc
    split_ifs at hc with h10
    · simp at hc
      subst hc
      exact digitChar_isDigit n h10
    · rcases List.mem_append.1 hc with h1 | h1
      · have hdiv : n / 10 < f := by
          have hlt : n / 10 < n := Nat.div_lt_self (by omega) (by omega)
          omega
        exact ih (n / 10) hdiv c h1
      · simp at h1
        subst h1
        exact digitChar_isDigit (n % 10) (Nat.mod_lt n (by omega))

theorem digitsVal_natCharsAux (fuel n : Nat) (h : n < fuel) :
    digitsVal (natCharsAux fuel n) = n := by
  induction fuel generalizing n with
  | zero => omega
  | succ f ih =>
    simp only [natCharsAux]
    split_ifs with h10
    · simp [digitsVal, digitChar_toNat n h10]
    · have hdiv : n / 10 < f := by
        have hlt : n / 10 < n := Nat.div_lt_self (by omega) (by omega)
        omega
      have hih := ih (n / 10) hdiv
      unfold digitsVal at hih ⊢
      rw [List.foldl_append, hih]
      simp [digitChar_toNat (n % 10) (Nat.mod_lt n (by omega))]
      have hdm := Nat.div_add_mod n 10
      omega

theorem natChars_ne_nil (n : Nat) : natChars n ≠ [] :=
  natCharsAux_ne_nil (n + 1) n (by omega)

theorem natChars_digits (n : Nat) : ∀ c ∈ natChars n, c.isDigit = true :=
  natCharsAux_digits (n + 1) n (by omega)

theorem parseNatChars_natChars (n : Nat) : parseNatChars (natChars n) = some n := by
  unfold parseNatChars
  rw [if_pos ⟨natChars_ne_nil n, List.all_eq_true.2 (natChars_digits n)⟩]
  exact congrArg some (digitsVal_natCharsAux (n + 1) n (by omega))

theorem ne_dash_of_isDigit (c : Char) (h : c.isDigit = true) : c ≠ '-' := by
  intro he
  subst he
  exact absurd h (by decide)

theorem parseRangeHeader_mkRangeValue (a b N : Nat) (hb : b < N) :
    parseRangeHeader (some (mkRangeValue a b)) N = (a, b) := by
  have hsw : startsWithL ("bytes=").data
      (("bytes=").data ++ (natChars a ++ '-' :: natChars b)) = true := by
    simp [startsWithL, take_len_append]
  have h6 : (("bytes=").data).length = 6 := rfl
  have hdrop : (("bytes=").data ++ (natChars a ++ '-' :: natChars b)).drop 6
      = natChars a ++ '-' :: natChars b := by
    rw [← h6, drop_len_append]
  have hAdig : ∀ c ∈ natChars a, (fun c => decide (c ≠ '-')) c = true :=
    fun c hc => decide_eq_true (ne_dash_of_isDigit c (natChars_digits a c hc))
  have hdash : (fun c => decide (c ≠ '-')) '-' = false := by decide
  show parseRangeHeader (some (("bytes=").data ++ (natChars a ++ '-' :: natChars b))) N
      = (a, b)
  unfold parseRangeHeader
  dsimp only
  rw [if_pos hsw]
  simp only [hdrop]
  rw [if_pos (by simp : '-' ∈ natChars a ++ '-' :: natChars b)]
  rw [takeWhile_append_cons _ _ _ _ hAdig hdash]
  rw [dropWhile_append_cons _ _ _ _ hAdig hdash]
  simp only [List.drop_succ_cons, List.drop_zero]
  rw [if_neg (natChars_ne_nil b)]
  rw [parseNatChars_natChars a, parseNatChars_natChars b]
  simp only [Option.getD_some]
  rw [Nat.min_eq_left (by omega)]

/-- C10: when `channels.txt` does not exist, `list_channels` succeeds and
returns the empty list rather than an error. -/
theorem C10_missing_file_lists_empty : listChannelsOp none = Except.ok [] := rfl

/-- C3: the list operation does **not** return disabled entries.  The S1
file consists of exactly one line, the disabled entry `# ` + `s1Url`, yet
`list_channels` returns the empty list: every line starting with `'#'` is
skipped before the disabled-entry branch can run, so the claimed entry
with `enabled = false` is never produced. -/
theorem C3_disabled_entries_dropped :
    rustLines s1File = ['#' :: ' ' :: s1Url] ∧
    listChannelsOp (some s1File) = Except.ok [] := ⟨by decide, rfl⟩

/-- C4: adding a URL that is already present as a *disabled* entry is not
rejected: the duplicate check consults `list_channels`, which drops
disabled entries, so `add` succeeds, appends the URL, and the length of
the list grows from 0 to 1 — the file and the list do change. -/
theorem C4_disabled_duplicate_not_rejected :
    (addChannel (some s1File) s1Url).err = none ∧
    (addChannel (some s1File) s1Url).writes = [WriteEff.appendData (s1Url ++ ['\n'])] ∧
    (addChannel (some s1File) s1Url).file = some (s1File ++ s1Url ++ ['\n']) ∧
    (listChannelsContent s1File).length = 0 ∧
    (listChannelsContent (s1File ++ s1Url ++ ['\n'])).length = 1 := by decide

/-- C1: a request path whose `..` segment appears only after
percent-decoding is *not* rejected: the literal `..` filter runs before
decoding and nothing re-checks afterwards, so `/video/%2E%2E/secret`
resolves to `vault/../secret` = `secret`, outside `vault/`, and the server
serves that file with status 200 instead of responding 404. -/
theorem C1_percent_encoded_traversal_served :
    decodedHasDotDotSegment escapePath = true ∧
    underVault (resolvedRelPath escapePath) = false ∧
    (serveVideoWithRange outsideVaultFs escapePath none).map HttpResponse.status = some 200 ∧
    (serveVideoWithRange outsideVaultFs escapePath none).map HttpResponse.body = some [42] := by
  decide

/-- C2 counterexample: for the 4-byte file at `vault/a.mp4` and the valid
range `bytes=0-3` (a = 0, b = N-1 = 3), the response status is 200 and no
`Content-Range` header is set, so the claim that *every* in-bounds range
request is answered 206 with `Content-Range` is false at this input. -/
theorem C2_whole_file_range_not_206 :
    (serveVideoWithRange demoFs (("a.mp4").data) (some (mkRangeValue 0 3))) =
      some { status := 200, contentRange := none, contentLength := 4
             body := [10, 20, 30, 40] } ∧
    ¬ ((serveVideoWithRange demoFs (("a.mp4").data) (some (mkRangeValue 0 3))).map
        HttpResponse.status = some 206) := by decide

/-- C6 counterexample: `add_channel` opens the file in append mode and
writes `url\n` after the existing bytes — an in-place partial edit, not a
full-file rewrite — and the pre-existing CRLF line ending survives in the
file, so line endings are not normalized on this write. -/
theorem C6_add_is_in_place_append :
    (addChannel (some crlfFile) addUrl).writes = [WriteEff.appendData (addUrl ++ ['\n'])] ∧
    ((addChannel (some crlfFile) addUrl).file.getD []).contains '\r' = true := by decide

/-- C8 counterexample: running the stdout reader on the S5 transcript
(3 discovered, 50% rate line, 2 completed) emits exactly one event, the
verbatim log event with progress 0; no event carries the composed
progress `(2/3 + 0.5/3) * 100 = 250/3 ≈ 83.3` — nor even the bare 50. -/
theorem C8_no_composed_progress_event :
    ((runStdout "전체 채널" s5Transcript).1.map DlEvent.progress) = [0] ∧
    ¬ (mkRat 250 3 ∈ (runStdout "전체 채널" s5Transcript).1.map DlEvent.progress) ∧
    ¬ ((50 : Rat) ∈ (runStdout "전체 채널" s5Transcript).1.map DlEvent.progress) := by decide

/-- C8 amended: per-item progress events carry the per-item percentage
alone (`parse_ytdlp_progress` emits exactly the parsed percent; the
completed/total_seen counters never contribute).  Moreover, on the S5
transcript no per-item event is emitted at all: the discovery-count and
completion-count parsers slice their line at a byte offset inside a
multi-byte character, which panics the reader thread at the first count
line, after only that line's verbatim log event; and the bare
`[download] 50.0%` line (without `% of`) matches no rule. -/
theorem C8_amended_per_item_only :
    runStdout "전체 채널" s5Transcript =
      ([{ channel := "전체 채널", status := "진행 중", progress := 0
          totalVideos := 0, completedVideos := 0, logMessage := s5Line1 }], true) ∧
    (parseYtdlpEvent "전체 채널" ytdlpFullLine).map DlEvent.progress = some 50 ∧
    parseYtdlpEvent "전체 채널" s5Line2 = none ∧
    parseTotalVideos s5Line1 = none ∧
    parseCompletedVideos s5Line3 = none := by decide

/-- C9 counterexample: the inactivity-timeout termination path emits zero
terminal events — not exactly one: the timeout error message contains
`중단`, so the command even reports the timeout as a successful
cancellation. -/
theorem C9_timeout_emits_no_terminal_event :
    (downloadTerminalEvents (RunOutcome.failed procTimeoutMsg)).length = 0 ∧
    downloadCommandResult (RunOutcome.failed procTimeoutMsg) = Except.ok cancelErrMsg :=
  ⟨rfl, rfl⟩

/-- C9 amended: exactly one terminal event is emitted on the natural-exit
paths (success or failure status) and none on any early-error path
(cancellation, timeout, spawn/pipe failures); the registry slot holds no
child at termination, because it is emptied right after spawn; and the
timeout error is reported to the caller as a successful cancellation. -/
theorem C9_amended_terminal_events (t c : Nat) (s : Bool) (e : String) (child : Nat) :
    (downloadTerminalEvents (RunOutcome.finished t c s)).length = 1 ∧
    (downloadTerminalEvents (RunOutcome.failed e)).length = 0 ∧
    (downloadSlotStates child).getLast? = some none ∧
    downloadCommandResult (RunOutcome.failed procTimeoutMsg) = Except.ok cancelErrMsg := by
  refine ⟨?_, rfl, rfl, rfl⟩
  cases s <;> rfl

/-- C5: on a well-formed channel file containing the URL `x`, toggling `x`
twice rewrites the file to the original contents, up to dropping the
optional final newline (the original is the round-trip result, or the
round-trip result plus one trailing `'\n'`). -/
theorem C5_toggle_twice_roundtrip (content url : List Char)
    (h : wellFormedChannels content url) :
    (toggleChannel ((toggleChannel (some content) url).file) url).file =
      some (joinSep '\n' (rustLines content)) ∧
    (content = joinSep '\n' (rustLines content) ∨
      content = joinSep '\n' (rustLines content) ++ ['\n']) := by
  obtain ⟨htrim, hlast, hcr, hu, huws, l0, hl0, -⟩ := h
  have hLne : rustLines content ≠ [] := by
    intro he
    rw [he] at hl0
    exact absurd hl0 (List.not_mem_nil l0)
  have hmem : ∀ l ∈ rustLines content, l ∈ splitOnChar '\n' content :=
    fun l hl => mem_split_of_mem_rustLines content l hcr hl
  have hLnl : ∀ l ∈ rustLines content, '\n' ∉ l :=
    fun l hl => not_mem_of_mem_splitOnChar '\n' content l (hmem l hl)
  have hLcr : ∀ l ∈ rustLines content, '\r' ∉ l :=
    fun l hl hm => hcr (mem_splitOnChar_of_mem '\n' content l '\r' (hmem l hl) hm)
  have hrecon : content = joinSep '\n' (rustLines content) ∨
      content = joinSep '\n' (rustLines content) ++ ['\n'] := by
    rcases rustLines_no_cr_cases content hcr with hc | hc
    · left
      have hj := joinSep_splitOnChar '\n' content
      rw [hc] at hj
      exact hj.symm
    · right
      have hj := joinSep_splitOnChar '\n' content
      rw [hc, joinSep_append_single '\n' _ [] hLne] at hj
      exact hj.symm
  refine ⟨?_, hrecon⟩
  have hfile1 : (toggleChannel (some content) url).file
      = some (joinSep '\n' ((rustLines content).map (toggleLine url))) := rfl
  rw [hfile1]
  have hMne : (rustLines content).map (toggleLine url) ≠ [] := by
    intro he
    exact hLne (by simpa using he)
  have hMnl : ∀ m ∈ (rustLines content).map (toggleLine url), '\n' ∉ m := by
    intro m hm
    obtain ⟨l, hl, rfl⟩ := List.mem_map.1 hm
    exact not_mem_toggleLine url l '\n' (by decide) (by decide) (hLnl l hl)
  have hMcr : ∀ m ∈ (rustLines content).map (toggleLine url), '\r' ∉ m := by
    intro m hm
    obtain ⟨l, hl, rfl⟩ := List.mem_map.1 hm
    exact not_mem_toggleLine url l '\r' (by decide) (by decide) (hLcr l hl)
  have hMlast : ((rustLines content).map (toggleLine url)).getLast? ≠ some [] := by
    rw [getLast?_map_eq, List.getLast?_eq_getLast _ hLne]
    intro he
    have he2 : toggleLine url ((rustLines content).getLast hLne) = [] := by
      simpa using he
    have hglmem : (rustLines content).getLast hLne ∈ rustLines content :=
      List.getLast_mem hLne
    have hglne : (rustLines content).getLast hLne ≠ [] := by
      intro hz
      apply hlast
      rw [List.getLast?_eq_getLast _ hLne, hz]
    exact toggleLine_ne_nil url _ (htrim _ hglmem) hglne hu he2
  have h2 : rustLines (joinSep '\n' ((rustLines content).map (toggleLine url)))
      = (rustLines content).map (toggleLine url) :=
    rustLines_joinSep _ hMne hMnl hMcr hMlast
  have hfile2 : (toggleChannel
        (some (joinSep '\n' ((rustLines content).map (toggleLine url)))) url).file
      = some (joinSep '\n'
          ((rustLines (joinSep '\n' ((rustLines content).map (toggleLine url)))).map
            (toggleLine url))) := rfl
  rw [hfile2, h2, List.map_map]
  have hcong : (rustLines content).map (toggleLine url ∘ toggleLine url)
      = rustLines content := by
    have hmc := List.map_congr_left
      (f := toggleLine url ∘ toggleLine url) (g := id)
      (fun l hl => toggleLine_invol url l (htrim l hl) hu huws)
    rw [hmc, List.map_id]
  rw [hcong]

/-- C5 witness: a concrete three-line file round-trips (the original file
equals the round-trip result plus its trailing newline). -/
theorem C5_toggle_twice_roundtrip_witness :
    wellFormedChannels wfFile wfUrl ∧
    (toggleChannel ((toggleChannel (some wfFile) wfUrl).file) wfUrl).file =
      some (joinSep '\n' (rustLines wfFile)) ∧
    joinSep '\n' (rustLines wfFile) ++ ['\n'] = wfFile :=
  ⟨by decide, (C5_toggle_twice_roundtrip wfFile wfUrl (by decide)).1, by decide⟩

/-- C6 amended: `remove` and `toggle` perform full-file rewrites whose
contents (the processed lines joined with `'\n'`) contain no carriage
return when the input's lines carry none besides CRLF terminators, while
`add` — when it succeeds — performs an in-place append of `url` plus a
newline, never a rewrite of the existing bytes. -/
theorem C6_rewrite_modes (content url : List Char)
    (h : ∀ l ∈ rustLines content, '\r' ∉ l) :
    (∃ r, removeChannel (some content) url =
        { file := some r, writes := [WriteEff.rewriteFull r], err := none } ∧ '\r' ∉ r) ∧
    (∃ t, toggleChannel (some content) url =
        { file := some t, writes := [WriteEff.rewriteFull t], err := none } ∧ '\r' ∉ t) ∧
    ((addChannel (some content) url).err = none →
      (addChannel (some content) url).writes = [WriteEff.appendData (url ++ ['\n'])]) := by
  refine ⟨⟨_, rfl, ?_⟩, ⟨_, rfl, ?_⟩, ?_⟩
  · refine not_mem_joinSep '\r' '\n' _ (by decide) ?_
    intro p hp
    exact h p (List.mem_of_mem_filter hp)
  · refine not_mem_joinSep '\r' '\n' _ (by decide) ?_
    intro p hp
    obtain ⟨l, hl, rfl⟩ := List.mem_map.1 hp
    exact not_mem_toggleLine url l '\r' (by decide) (by decide) (h l hl)
  · intro he
    by_cases hdup : (listChannelsContent content).any (fun c => c.url = url) = true
    · exfalso
      have herr : (addChannel (some content) url).err = some "채널이 이미 존재합니다" := by
        simp [addChannel, hdup]
      rw [herr] at he
      exact Option.noConfusion he
    · show (addChannel (some content) url).writes = [WriteEff.appendData (url ++ ['\n'])]
      simp [addChannel, hdup]

/-- C6 witness: on a CRLF file, remove succeeds as a rewrite and the
toggled rewrite carries no carriage return. -/
theorem C6_rewrite_modes_witness :
    (∀ l ∈ rustLines crlfFile, '\r' ∉ l) ∧
    (removeChannel (some crlfFile) addUrl).err = none ∧
    '\r' ∉ ((toggleChannel (some crlfFile) addUrl).file.getD []) := by
  refine ⟨by decide, ?_, ?_⟩
  · obtain ⟨⟨r, hr, -⟩, -, -⟩ := C6_rewrite_modes crlfFile addUrl (by decide)
    rw [hr]
  · obtain ⟨-, ⟨t, ht, htc⟩, -⟩ := C6_rewrite_modes crlfFile addUrl (by decide)
    rw [ht]
    simpa using htc

/-- C2 amended: for a served file `F` and any in-bounds range `a-b`, the
body is exactly `F[a..=b]`; the status is 206 with
`Content-Range: bytes a-b/N` and `Content-Length: b-a+1` unless the range
covers the whole file, in which case the status is 200 with
`Content-Length: N` and no `Content-Range`. -/
theorem C2_range_request_correct (fs : List (List Char) → Option (List Nat))
    (path : List Char) (F : List Nat) (a b : Nat)
    (hfs : fs (normalizeSegments (resolvedRelPath path)) = some F)
    (hab : a ≤ b) (hb : b < F.length) :
    serveVideoWithRange fs path (some (mkRangeValue a b)) =
      some { status := if a = 0 ∧ b + 1 = F.length then 200 else 206
             contentRange := if a = 0 ∧ b + 1 = F.length then none
               else some (("bytes ").data ++ natChars a ++ ['-'] ++ natChars b
                 ++ ['/'] ++ natChars F.length)
             contentLength := if a = 0 ∧ b + 1 = F.length then F.length else b - a + 1
             body := (F.drop a).take (b - a + 1) } := by
  unfold serveVideoWithRange
  dsimp only
  rw [hfs]
  dsimp only
  rw [parseRangeHeader_mkRangeValue a b F.length hb]
  dsimp only
  rw [if_neg (show ¬ F.length < a + (b - a + 1) by omega)]
  by_cases hfull : a = 0 ∧ b + 1 = F.length
  · obtain ⟨h0, hN⟩ := hfull
    have hd1 : decide (a ≠ 0) = false := by simp [h0]
    have hd2 : decide (b + 1 ≠ F.length) = false := by simp [hN]
    simp [h0, hN, hd1, hd2]
  · have hor : a ≠ 0 ∨ b + 1 ≠ F.length := by tauto
    have hd : (decide (a ≠ 0) || decide (b + 1 ≠ F.length)) = true := by
      rcases hor with h1 | h1 <;> simp [h1]
    simp [hfull, hd]

/-- C2 witness: on the 4-byte file, `bytes=1-2` yields 206,
`Content-Range: bytes 1-2/4` and the two middle bytes. -/
theorem C2_range_request_correct_witness :
    demoFs (normalizeSegments (resolvedRelPath (("a.mp4").data))) = some [10, 20, 30, 40] ∧
    serveVideoWithRange demoFs (("a.mp4").data) (some (mkRangeValue 1 2)) =
      some { status := 206, contentRange := some (("bytes 1-2/4").data)
             contentLength := 2, body := [20, 30] } := by
  refine ⟨by decide, ?_⟩
  rw [C2_range_request_correct demoFs (("a.mp4").data) [10, 20, 30, 40] 1 2
    (by decide) (by decide) (by decide)]
  decide

/-- C7: whenever a watcher poll observes more than 15 000 ms since the
last output line on a job that is neither cancelled nor already decided
(all earlier polls were indecisive), the watcher verdict is `timeout` —
the path that calls `child.kill()` and returns the timeout error from
`run_process_with_realtime_output`. -/
theorem C7_inactivity_timeout_kills (pre : List PollObs) (o : PollObs) (post : List PollObs)
    (hpre : ∀ p ∈ pre, watcherStep p = none)
    (hc : o.cancelled = false) (hidle : 15000 < o.idleMillis) :
    runWatcher (pre ++ o :: post) = some WatcherVerdict.timeout ∧
    watcherKillsChild WatcherVerdict.timeout = true ∧
    watcherReturn WatcherVerdict.timeout = Except.error procTimeoutMsg := by
  refine ⟨?_, rfl, rfl⟩
  induction pre with
  | nil =>
    simp only [List.nil_append, runWatcher, watcherStep, hc, Bool.false_eq_true, if_false,
      if_pos hidle]
  | cons p ps ih =>
    have hstep := hpre p (List.mem_cons_self p ps)
    simp only [List.cons_append, runWatcher, hstep]
    exact ih (fun q hq => hpre q (List.mem_cons_of_mem p hq))

/-- C7 witness: a run with one quiet poll and then a poll 15.5 s after the
last line times out. -/
theorem C7_inactivity_timeout_kills_witness :
    (∀ p ∈ [(⟨false, 1000, false⟩ : PollObs)], watcherStep p = none) ∧
    runWatcher [⟨false, 1000, false⟩, ⟨false, 15500, false⟩] = some WatcherVerdict.timeout ∧
    watcherReturn WatcherVerdict.timeout = Except.error procTimeoutMsg :=
  ⟨by decide,
   (C7_inactivity_timeout_kills [⟨false, 1000, false⟩] ⟨false, 15500, false⟩ []
     (by decide) rfl (by decide)).1,
   (C7_inactivity_timeout_kills [⟨false, 1000, false⟩] ⟨false, 15500, false⟩ []
     (by decide) rfl (by decide)).2.2⟩

end YDH
